import Mathlib

/-!
Shallow embedding of the `edit_dist` repository (files `src/lib.rs` and
`src/matrix.rs`): a bounds-checked row-major matrix of unsigned integers and
the Wagner–Fischer Levenshtein-distance algorithm on top of it.

Rust `usize` values are modelled as `Nat` (the spec excludes dimension
products that overflow the platform word).  Every Rust panic site (the
`Index`/`IndexMut` operators on `Matrix`, slice indexing of the collected
input vectors, and `.min().unwrap()`) is modelled as `none` in the `Option`
monad, so "the function returns `some _`" states that no panic can fire.
-/

namespace EditDist

/-- Type being used for selecting cells from a matrix (`matrix.rs`,
`pub type Selector = (usize, usize)`). -/
abbrev Selector := Nat × Nat

/-- 2D matrix with given size of `T`-typed elements (`matrix.rs`,
`struct Matrix<T> { data: Vec<T>, width: usize, height: usize }`). -/
structure Matrix (T : Type) where
  data : List T
  width : Nat
  height : Nat
deriving Repr, DecidableEq

namespace Matrix

/-- `Matrix::new(width, height)`: `vec![T::default(); width * height]`
together with the two dimension fields. -/
def new (T : Type) [Inhabited T] (width height : Nat) : Matrix T :=
  { data := List.replicate (width * height) default
    width := width
    height := height }

/-- `Matrix::get_index`: linear index `y * width + x`, returned iff it is
`< width * height` (this is the exact check in the source: the individual
coordinates are *not* compared with the bounds). -/
def get_index {T : Type} (m : Matrix T) (selector : Selector) : Option Nat :=
  let y := selector.1
  let x := selector.2
  let index := y * m.width + x
  if index < m.width * m.height then some index else none

/-- `Matrix::get`: translate the selector and read the backing vector
(`self.data.get(index)` is `some` iff `index < data.len()`). -/
def get {T : Type} (m : Matrix T) (selector : Selector) : Option T :=
  match m.get_index selector with
  | some index => m.data[index]?
  | none => none

/-- Writing through `Matrix::get_mut` (and hence through `IndexMut`, which is
`get_mut` followed by a panic on `None`): the returned matrix has the cell at
the translated linear index replaced, and `none` models the absence signal
(or the panic of the indexing operator). -/
def writeCell {T : Type} (m : Matrix T) (selector : Selector) (v : T) :
    Option (Matrix T) :=
  match m.get_index selector with
  | some index =>
      if index < m.data.length then
        some { m with data := m.data.set index v }
      else
        none
  | none => none

end Matrix

/-- The body of the inner `for x in 1..matrix.width()` loop of `levenshtein`
(`lib.rs` lines 36–45): compare `first_word[x-1]` with `second_word[y-1]`
(slice indexing, a panic site, hence `Option.bind` on `List.get?`), read the
three neighbouring cells through the `Index` operator (panic on absence),
take `.min().unwrap()` of the three candidate values and store it at
`(y, x)` through the `IndexMut` operator. -/
def cellBody {T : Type} [DecidableEq T] (first_word second_word : List T)
    (y : Nat) (m : Matrix Nat) (x : Nat) : Option (Matrix Nat) :=
  (first_word[x - 1]?).bind fun fc =>
  (second_word[y - 1]?).bind fun sc =>
  let the_same_letter := fc = sc
  let cost : Nat := if the_same_letter then 0 else 1
  (m.get (y - 1, x - 1)).bind fun a =>
  (m.get (y - 1, x)).bind fun b =>
  (m.get (y, x - 1)).bind fun c =>
  let values : List Nat := [a + cost, b + 1, c + 1]
  values.min?.bind fun v =>
  m.writeCell (y, x) v

/-- `levenshtein` (`lib.rs` lines 19–50).  The two iterator arguments are
already collected into `Vec`s, modelled as the two `List` arguments.  The
four `for` loops over ranges become `foldlM` over `List.range` /
`List.range'` (Rust `a..b` is `List.range' a (b - a)`); as in the source, the
bound of the inner range is re-read from the current matrix on every outer
iteration.  The result is the bottom-right cell, read through the `Index`
operator. -/
def levenshtein {T : Type} [DecidableEq T]
    (first_word second_word : List T) : Option Nat :=
  let m0 : Matrix Nat :=
    Matrix.new Nat (first_word.length + 1) (second_word.length + 1)
  ((List.range m0.height).foldlM
      (fun (m : Matrix Nat) y => m.writeCell (y, 0) y) m0).bind
    fun m1 =>
  ((List.range m1.width).foldlM
      (fun (m : Matrix Nat) x => m.writeCell (0, x) x) m1).bind
    fun m2 =>
  ((List.range' 1 (m2.height - 1)).foldlM
      (fun (m : Matrix Nat) y =>
        (List.range' 1 (m.width - 1)).foldlM
          (cellBody first_word second_word y) m)
      m2).bind
    fun m3 =>
  m3.get (m3.height - 1, m3.width - 1)

/-!
### The mathematical Levenshtein distance

`lev` is the textbook recursive Levenshtein distance, and `EditStep` /
`editChain` formalise "single-element insertions, deletions and
substitutions": `editChain n s t` says `s` can be transformed into `t` by
exactly `n` single-element edits.  The distance claims of the spec are
settled against these definitions.
-/

/-- Recursive Levenshtein distance between two lists. -/
def lev {T : Type} [DecidableEq T] : List T → List T → Nat
  | [], t => t.length
  | _ :: s, [] => s.length + 1
  | a :: s, b :: t =>
    if a = b then lev s t
    else 1 + min (lev s t) (min (lev s (b :: t)) (lev (a :: s) t))
termination_by s t => s.length + t.length
decreasing_by all_goals (simp only [List.length_cons]; omega)

/-- One single-element edit: insert an element, delete an element, or
substitute an element for a *different* one, anywhere in the list. -/
inductive EditStep {T : Type} : List T → List T → Prop
  | ins (c : T) (s : List T) : EditStep s (c :: s)
  | del (c : T) (s : List T) : EditStep (c :: s) s
  | sub (c d : T) (s : List T) : c ≠ d → EditStep (c :: s) (d :: s)
  | cons (c : T) {s t : List T} : EditStep s t → EditStep (c :: s) (c :: t)

/-- `editChain n s t`: `s` is transformed into `t` by exactly `n`
single-element edits. -/
def editChain {T : Type} : Nat → List T → List T → Prop
  | 0, s, t => s = t
  | n + 1, s, t => ∃ u, EditStep s u ∧ editChain n u t

section LevTheory

variable {T : Type} [DecidableEq T]

theorem lev_nil_left (t : List T) : lev [] t = t.length := by
  simp [lev]

theorem lev_cons_cons (a b : T) (s t : List T) :
    lev (a :: s) (b :: t) =
      if a = b then lev s t
      else 1 + min (lev s t) (min (lev s (b :: t)) (lev (a :: s) t)) := by
  rw [lev]

theorem lev_nil_right (s : List T) : lev s [] = s.length := by
  cases s <;> simp [lev]

theorem lev_self (s : List T) : lev s s = 0 := by
  induction s with
  | nil => simp [lev]
  | cons a s ih => rw [lev_cons_cons, if_pos rfl, ih]

/-- L1 and L4: prepending an element to either argument changes the distance
by at most one (upward on the left, downward on the right).  Proved by strong
induction on the total length. -/
theorem lev_phi :
    ∀ (N : Nat) (s t : List T), s.length + t.length ≤ N →
      (∀ c, lev (c :: s) t ≤ lev s t + 1) ∧
      (∀ d, lev s t ≤ lev s (d :: t) + 1) := by
  intro N
  induction N with
  | zero =>
    intro s t h
    have hs : s = [] := by cases s <;> simp_all
    have ht : t = [] := by cases t <;> simp_all
    subst hs; subst ht
    refine ⟨fun c => ?_, fun d => ?_⟩ <;> simp [lev, lev_cons_cons]
  | succ N ih =>
    intro s t hst
    constructor
    · intro c
      match t with
      | [] => simp [lev_nil_right]
      | d :: t' =>
        rw [lev_cons_cons]
        by_cases hcd : c = d
        · rw [if_pos hcd]
          have h4 := (ih s t' (by simp at hst; omega)).2 d
          omega
        · rw [if_neg hcd]
          omega
    · intro d
      match s with
      | [] => simp only [lev_nil_left, List.length_cons]; omega
      | x :: s' =>
        rw [lev_cons_cons (b := d)]
        by_cases hxd : x = d
        · rw [if_pos hxd]
          have h1 := (ih s' t (by simp at hst; omega)).1 x
          omega
        · rw [if_neg hxd]
          have h1 := (ih s' t (by simp at hst; omega)).1 x
          have h4 := (ih s' t (by simp at hst; omega)).2 d
          omega

/-- L2 and L3: the other two one-sided Lipschitz bounds. -/
theorem lev_psi :
    ∀ (N : Nat) (s t : List T), s.length + t.length ≤ N →
      (∀ c, lev s t ≤ lev (c :: s) t + 1) ∧
      (∀ d, lev s (d :: t) ≤ lev s t + 1) := by
  intro N
  induction N with
  | zero =>
    intro s t h
    have hs : s = [] := by cases s <;> simp_all
    have ht : t = [] := by cases t <;> simp_all
    subst hs; subst ht
    refine ⟨fun c => ?_, fun d => ?_⟩ <;> simp [lev, lev_cons_cons]
  | succ N ih =>
    intro s t hst
    constructor
    · intro c
      match t with
      | [] => simp only [lev_nil_right, List.length_cons]; omega
      | d :: t' =>
        rw [lev_cons_cons]
        by_cases hcd : c = d
        · rw [if_pos hcd]
          have h3 := (ih s t' (by simp at hst; omega)).2 d
          omega
        · rw [if_neg hcd]
          have h3 := (ih s t' (by simp at hst; omega)).2 d
          have h2 := (ih s t' (by simp at hst; omega)).1 c
          omega
    · intro d
      match s with
      | [] => simp [lev_nil_left]
      | x :: s' =>
        rw [lev_cons_cons (b := d)]
        by_cases hxd : x = d
        · rw [if_pos hxd]
          have h2 := (ih s' t (by simp at hst; omega)).1 x
          omega
        · rw [if_neg hxd]
          omega

theorem lev_cons_left_le (c : T) (s t : List T) :
    lev (c :: s) t ≤ lev s t + 1 :=
  (lev_phi (s.length + t.length) s t le_rfl).1 c

theorem lev_le_cons_right (d : T) (s t : List T) :
    lev s t ≤ lev s (d :: t) + 1 :=
  (lev_phi (s.length + t.length) s t le_rfl).2 d

theorem lev_le_cons_left (c : T) (s t : List T) :
    lev s t ≤ lev (c :: s) t + 1 :=
  (lev_psi (s.length + t.length) s t le_rfl).1 c

theorem lev_cons_right_le (d : T) (s t : List T) :
    lev s (d :: t) ≤ lev s t + 1 :=
  (lev_psi (s.length + t.length) s t le_rfl).2 d

/-- Substituting the head element changes the distance by at most one. -/
theorem lev_sub_le (c d : T) (s t : List T) :
    lev (c :: s) t ≤ 1 + lev (d :: s) t := by
  induction t with
  | nil => simp [lev_nil_right]
  | cons e t' ih =>
    rw [lev_cons_cons, lev_cons_cons (a := d)]
    have f1 := lev_le_cons_left d s t'
    have f4 := lev_le_cons_right e s t'
    by_cases hce : c = e <;> by_cases hde : d = e
    · rw [if_pos hce, if_pos hde]; omega
    · rw [if_pos hce, if_neg hde]; omega
    · rw [if_neg hce, if_pos hde]; omega
    · rw [if_neg hce, if_neg hde]; omega

end LevTheory

section EditSteps

variable {T : Type}

/-- One edit changes the length by at most one. -/
theorem EditStep.length_bounds {s t : List T} (h : EditStep s t) :
    t.length ≤ s.length + 1 ∧ s.length ≤ t.length + 1 := by
  induction h with
  | ins c s => simp only [List.length_cons]; omega
  | del c s => simp only [List.length_cons]; omega
  | sub c d s hne => simp only [List.length_cons]; omega
  | cons c h ih => simp only [List.length_cons]; omega

theorem EditStep.symm {s t : List T} (h : EditStep s t) : EditStep t s := by
  induction h with
  | ins c s => exact EditStep.del c s
  | del c s => exact EditStep.ins c s
  | sub c d s hne => exact EditStep.sub d c s (Ne.symm hne)
  | cons c h ih => exact EditStep.cons c ih

theorem editStep_snoc_ins (c : T) : ∀ s : List T, EditStep s (s ++ [c])
  | [] => EditStep.ins c []
  | a :: s => EditStep.cons a (editStep_snoc_ins c s)

theorem editStep_snoc_sub {c d : T} (hne : c ≠ d) :
    ∀ s : List T, EditStep (s ++ [c]) (s ++ [d])
  | [] => EditStep.sub c d [] hne
  | a :: s => EditStep.cons a (editStep_snoc_sub hne s)

theorem editStep_snoc_congr {s t : List T} (c : T) (h : EditStep s t) :
    EditStep (s ++ [c]) (t ++ [c]) := by
  induction h with
  | ins d s => exact EditStep.ins d (s ++ [c])
  | del d s => exact EditStep.del d (s ++ [c])
  | sub d e s hne => exact EditStep.sub d e (s ++ [c]) hne
  | cons d h ih => exact EditStep.cons d ih

theorem editStep_reverse {s t : List T} (h : EditStep s t) :
    EditStep s.reverse t.reverse := by
  induction h with
  | ins c s => rw [List.reverse_cons]; exact editStep_snoc_ins c s.reverse
  | del c s => rw [List.reverse_cons]; exact (editStep_snoc_ins c s.reverse).symm
  | sub c d s hne =>
    rw [List.reverse_cons, List.reverse_cons]
    exact editStep_snoc_sub hne s.reverse
  | cons c h ih =>
    rw [List.reverse_cons, List.reverse_cons]
    exact editStep_snoc_congr c ih

theorem editChain_comp {m : Nat} :
    ∀ {n : Nat} {s t u : List T}, editChain m s t → editChain n t u →
      editChain (m + n) s u := by
  induction m with
  | zero =>
    intro n s t u h1 h2
    simp only [editChain] at h1
    subst h1
    simpa using h2
  | succ m ih =>
    intro n s t u h1 h2
    obtain ⟨w, hw, hchain⟩ := h1
    rw [Nat.succ_add]
    exact ⟨w, hw, ih hchain h2⟩

theorem editChain_single {s t : List T} (h : EditStep s t) : editChain 1 s t :=
  ⟨t, h, rfl⟩

theorem editChain_snoc {n : Nat} {s t u : List T}
    (h1 : editChain n s t) (h2 : EditStep t u) : editChain (n + 1) s u :=
  editChain_comp h1 (editChain_single h2)

theorem editChain_symm :
    ∀ {n : Nat} {s t : List T}, editChain n s t → editChain n t s := by
  intro n
  induction n with
  | zero => intro s t h; exact h.symm
  | succ n ih =>
    intro s t h
    obtain ⟨w, hw, hchain⟩ := h
    exact editChain_snoc (ih hchain) hw.symm

theorem editChain_cons_congr (c : T) :
    ∀ {n : Nat} {s t : List T}, editChain n s t → editChain n (c :: s) (c :: t) := by
  intro n
  induction n with
  | zero =>
    intro s t h
    simp only [editChain] at h ⊢
    rw [h]
  | succ n ih =>
    intro s t h
    obtain ⟨w, hw, hchain⟩ := h
    exact ⟨c :: w, EditStep.cons c hw, ih hchain⟩

theorem editChain_reverse :
    ∀ {n : Nat} {s t : List T}, editChain n s t →
      editChain n s.reverse t.reverse := by
  intro n
  induction n with
  | zero =>
    intro s t h
    simp only [editChain] at h ⊢
    rw [h]
  | succ n ih =>
    intro s t h
    obtain ⟨w, hw, hchain⟩ := h
    exact ⟨w.reverse, editStep_reverse hw, ih hchain⟩

/-- The empty list is transformed into `t` by `t.length` insertions. -/
theorem editChain_nil_left : ∀ t : List T, editChain t.length [] t := by
  intro t
  induction t with
  | nil => rfl
  | cons y t' ih =>
    exact ⟨[y], EditStep.ins y [], editChain_cons_congr y ih⟩

end EditSteps

section LevChain

variable {T : Type} [DecidableEq T]

/-- One edit on the left argument changes the distance by at most one. -/
theorem editStep_lev_le {s u : List T} (h : EditStep s u) :
    ∀ t, lev s t ≤ 1 + lev u t := by
  induction h with
  | ins c s =>
    intro t
    have := lev_le_cons_left c s t
    omega
  | del c s =>
    intro t
    have := lev_cons_left_le c s t
    omega
  | sub c d s hne =>
    intro t
    exact lev_sub_le c d s t
  | cons c h ih =>
    rename_i s u
    intro t
    induction t with
    | nil =>
      have := h.length_bounds
      simp only [lev_nil_right, List.length_cons]
      omega
    | cons e t' iht =>
      rw [lev_cons_cons, lev_cons_cons]
      have i1 := ih t'
      have i2 := ih (e :: t')
      by_cases hce : c = e
      · rw [if_pos hce, if_pos hce]; omega
      · rw [if_neg hce, if_neg hce]; omega

/-- Lower bound: no chain of edits is shorter than `lev`. -/
theorem lev_le_of_editChain :
    ∀ {n : Nat} {s t : List T}, editChain n s t → lev s t ≤ n := by
  intro n
  induction n with
  | zero =>
    intro s t h
    simp only [editChain] at h
    subst h
    rw [lev_self]
  | succ n ih =>
    intro s t h
    obtain ⟨u, hu, hchain⟩ := h
    have h1 := editStep_lev_le hu t
    have h2 := ih hchain
    omega

/-- Achievability: there is a chain of exactly `lev s t` edits from `s`
to `t`. -/
theorem editChain_lev :
    ∀ (N : Nat) (s t : List T), s.length + t.length ≤ N →
      editChain (lev s t) s t := by
  intro N
  induction N with
  | zero =>
    intro s t h
    have hs : s = [] := by cases s <;> simp_all
    have ht : t = [] := by cases t <;> simp_all
    subst hs; subst ht
    rw [lev_nil_left]
    exact editChain_nil_left []
  | succ N ih =>
    intro s t hst
    match s, t with
    | [], t =>
      rw [lev_nil_left]
      exact editChain_nil_left t
    | x :: s', [] =>
      rw [lev_nil_right]
      exact editChain_symm (editChain_nil_left (x :: s'))
    | x :: s', y :: t' =>
      rw [lev_cons_cons]
      by_cases hxy : x = y
      · rw [if_pos hxy]
        subst hxy
        exact editChain_cons_congr x (ih s' t' (by simp at hst; omega))
      · rw [if_neg hxy]
        have hd := ih s' t' (by simp at hst; omega)
        have hb := ih s' (y :: t') (by simp only [List.length_cons] at hst ⊢; omega)
        have hc := ih (x :: s') t' (by simp only [List.length_cons] at hst ⊢; omega)
        rcases Nat.le_total (lev s' t') (min (lev s' (y :: t')) (lev (x :: s') t'))
          with h1 | h1
        · rw [min_eq_left h1, Nat.add_comm]
          exact ⟨y :: s', EditStep.sub x y s' hxy, editChain_cons_congr y hd⟩
        · rw [min_eq_right h1]
          rcases Nat.le_total (lev s' (y :: t')) (lev (x :: s') t') with h2 | h2
          · rw [min_eq_left h2, Nat.add_comm]
            exact ⟨s', EditStep.del x s', hb⟩
          · rw [min_eq_right h2, Nat.add_comm]
            exact ⟨y :: x :: s', EditStep.ins y (x :: s'),
              editChain_cons_congr y hc⟩

/-- The chain of minimal length always exists. -/
theorem editChain_lev_self (s t : List T) : editChain (lev s t) s t :=
  editChain_lev (s.length + t.length) s t le_rfl

theorem lev_reverse (s t : List T) :
    lev s.reverse t.reverse = lev s t := by
  apply Nat.le_antisymm
  · exact lev_le_of_editChain (editChain_reverse (editChain_lev_self s t))
  · have h := lev_le_of_editChain
      (editChain_reverse (editChain_lev_self s.reverse t.reverse))
    simpa using h

theorem lev_symm (s t : List T) : lev s t = lev t s :=
  Nat.le_antisymm
    (lev_le_of_editChain (editChain_symm (editChain_lev_self t s)))
    (lev_le_of_editChain (editChain_symm (editChain_lev_self s t)))

theorem lev_triangle (s t u : List T) : lev s u ≤ lev s t + lev t u :=
  lev_le_of_editChain
    (editChain_comp (editChain_lev_self s t) (editChain_lev_self t u))

theorem lev_eq_zero_iff (s t : List T) : lev s t = 0 ↔ s = t := by
  constructor
  · intro h
    have hc := editChain_lev_self s t
    rw [h] at hc
    exact hc
  · intro h
    rw [h, lev_self]

/-- The distance recurrence "at the right end": exactly the cell recurrence
of the Wagner–Fischer table. -/
theorem lev_snoc_snoc (a b : T) (s t : List T) :
    lev (s ++ [a]) (t ++ [b]) =
      if a = b then lev s t
      else 1 + min (lev s t) (min (lev s (t ++ [b])) (lev (s ++ [a]) t)) := by
  have h1 : lev (s ++ [a]) (t ++ [b]) = lev (a :: s.reverse) (b :: t.reverse) := by
    rw [← lev_reverse (a :: s.reverse) (b :: t.reverse)]
    simp
  have h2 : lev s t = lev s.reverse t.reverse := (lev_reverse s t).symm
  have h3 : lev s (t ++ [b]) = lev s.reverse (b :: t.reverse) := by
    rw [← lev_reverse s (t ++ [b])]
    simp
  have h4 : lev (s ++ [a]) t = lev (a :: s.reverse) t.reverse := by
    rw [← lev_reverse (s ++ [a]) t]
    simp
  rw [h1, lev_cons_cons, h2, h3, h4]

theorem lev_le_snoc_left (a : T) (s t : List T) :
    lev s t ≤ lev (s ++ [a]) t + 1 := by
  have h4 : lev (s ++ [a]) t = lev (a :: s.reverse) t.reverse := by
    rw [← lev_reverse (s ++ [a]) t]; simp
  rw [h4, ← lev_reverse s t]
  exact lev_le_cons_left a s.reverse t.reverse

theorem lev_le_snoc_right (b : T) (s t : List T) :
    lev s t ≤ lev s (t ++ [b]) + 1 := by
  have h3 : lev s (t ++ [b]) = lev s.reverse (b :: t.reverse) := by
    rw [← lev_reverse s (t ++ [b])]; simp
  rw [h3, ← lev_reverse s t]
  exact lev_le_cons_right b s.reverse t.reverse

/-- The Wagner–Fischer cell recurrence, in exactly the form computed by the
code: the new cell is the minimum of the diagonal neighbour plus the
substitution cost, the upper neighbour plus one, and the left neighbour plus
one. -/
theorem lev_take_recurrence (F S : List T) (x y : Nat) (fc sc : T)
    (hf : F[x]? = some fc) (hs : S[y]? = some sc) :
    lev (F.take (x + 1)) (S.take (y + 1)) =
      min (lev (F.take x) (S.take y) + (if fc = sc then 0 else 1))
        (min (lev (F.take (x + 1)) (S.take y) + 1)
          (lev (F.take x) (S.take (y + 1)) + 1)) := by
  have hFx : F.take (x + 1) = F.take x ++ [fc] := by
    rw [List.take_succ, hf]
    rfl
  have hSy : S.take (y + 1) = S.take y ++ [sc] := by
    rw [List.take_succ, hs]
    rfl
  have hup : lev (F.take x) (S.take y) ≤ lev (F.take (x + 1)) (S.take y) + 1 := by
    rw [hFx]; exact lev_le_snoc_left fc (F.take x) (S.take y)
  have hleft : lev (F.take x) (S.take y) ≤ lev (F.take x) (S.take (y + 1)) + 1 := by
    rw [hSy]; exact lev_le_snoc_right sc (F.take x) (S.take y)
  rw [hFx, hSy, lev_snoc_snoc, ← hFx, ← hSy]
  by_cases hfs : fc = sc
  · rw [if_pos hfs, if_pos hfs]
    omega
  · rw [if_neg hfs, if_neg hfs]
    omega

end LevChain

/-!
### Reasoning about the matrix

`Matrix.cellAt` is a total abbreviation for the value stored at cell
`(y, x)` (used only at in-range indices), and `Matrix.Dims` packages the
representation invariant every matrix produced by `Matrix.new` and
preserved by `writeCell` satisfies.
-/

namespace Matrix

/-- The value stored at cell `(y, x)` (defaulting to `0`; only ever used at
in-range indices). -/
def cellAt (m : Matrix Nat) (y x : Nat) : Nat :=
  (m.data[y * m.width + x]?).getD 0

/-- Representation invariant: the dimensions are `W × Hh` and the backing
vector has exactly `W * Hh` elements. -/
def Dims (m : Matrix Nat) (W Hh : Nat) : Prop :=
  m.width = W ∧ m.height = Hh ∧ m.data.length = W * Hh

theorem dims_new (W Hh : Nat) : (Matrix.new Nat W Hh).Dims W Hh := by
  refine ⟨rfl, rfl, ?_⟩
  simp [Matrix.new]

theorem linear_index_lt {W Hh y x : Nat} (hy : y < Hh) (hx : x < W) :
    y * W + x < W * Hh := by
  calc y * W + x < y * W + W := by omega
    _ = (y + 1) * W := by ring
    _ ≤ Hh * W := Nat.mul_le_mul_right W hy
    _ = W * Hh := Nat.mul_comm Hh W

theorem linear_index_inj {W y x y' x' : Nat} (hx : x < W) (hx' : x' < W)
    (h : y * W + x = y' * W + x') : y = y' ∧ x = x' := by
  have hW : 0 < W := Nat.lt_of_le_of_lt (Nat.zero_le x) hx
  have hxm : (y * W + x) % W = x := by
    rw [Nat.add_comm, Nat.add_mul_mod_self_right, Nat.mod_eq_of_lt hx]
  have hxm' : (y' * W + x') % W = x' := by
    rw [Nat.add_comm, Nat.add_mul_mod_self_right, Nat.mod_eq_of_lt hx']
  have hxx : x = x' := by rw [← hxm, ← hxm', h]
  subst hxx
  have hyy : y * W = y' * W := by omega
  exact ⟨Nat.eq_of_mul_eq_mul_right hW hyy, rfl⟩

/-- A successful in-range write: the result is `some`, the dimensions are
preserved, the written cell holds the new value, and every other in-range
cell is unchanged. -/
theorem writeCell_in_range {m : Matrix Nat} {W Hh y x : Nat} (v : Nat)
    (hd : m.Dims W Hh) (hy : y < Hh) (hx : x < W) :
    ∃ mw, m.writeCell (y, x) v = some mw ∧ mw.Dims W Hh ∧
      mw.cellAt y x = v ∧
      (∀ y' x', y' < Hh → x' < W → (y', x') ≠ (y, x) →
        mw.cellAt y' x' = m.cellAt y' x') := by
  obtain ⟨hw, hh, hlen⟩ := hd
  have hidx : y * W + x < W * Hh := linear_index_lt hy hx
  refine ⟨{ m with data := m.data.set (y * m.width + x) v }, ?_, ?_, ?_, ?_⟩
  · unfold writeCell get_index
    simp [hw, hh, hlen, hidx]
  · exact ⟨hw, hh, by simp [List.length_set, hlen]⟩
  · unfold cellAt
    simp only [hw]
    rw [List.getElem?_set_self (by rw [hlen]; exact hidx)]
    rfl
  · intro y' x' hy' hx' hne
    unfold cellAt
    simp only [hw]
    rw [List.getElem?_set_ne]
    intro hcontra
    exact hne (by
      obtain ⟨h1, h2⟩ := linear_index_inj hx hx' hcontra
      simp [h1, h2])

/-- An in-range read through `get` returns the stored cell value. -/
theorem get_in_range {m : Matrix Nat} {W Hh y x : Nat}
    (hd : m.Dims W Hh) (hy : y < Hh) (hx : x < W) :
    m.get (y, x) = some (m.cellAt y x) := by
  obtain ⟨hw, hh, hlen⟩ := hd
  have hidx : y * W + x < W * Hh := linear_index_lt hy hx
  unfold get get_index cellAt
  have hlt : y * W + x < m.data.length := by rw [hlen]; exact hidx
  simp [hw, hh, hidx, List.getElem?_eq_getElem hlt]

/-- Every cell of a freshly constructed matrix reads zero. -/
theorem cellAt_new (W Hh y x : Nat) :
    (Matrix.new Nat W Hh).cellAt y x = 0 := by
  unfold cellAt
  simp only [Matrix.new]
  rw [List.getElem?_replicate]
  split <;> rfl

end Matrix

/-!
### Refinement: the imperative table fill computes `lev`

The intended value of cell `(y, x)` of the table is
`lev (F.take x) (S.take y)`: the distance between the first `x` elements of
the first word and the first `y` elements of the second word.  The four
loops of `levenshtein` are `foldlM`s; each gets an invariant lemma proved by
induction on the length of the remaining range.
-/

section Refinement

variable {T : Type} [DecidableEq T]

theorem lev_take_nil_right (F S : List T) (x : Nat) (hx : x ≤ F.length) :
    lev (F.take x) (S.take 0) = x := by
  rw [List.take_zero, lev_nil_right, List.length_take, min_eq_left hx]

theorem lev_take_nil_left (F S : List T) (y : Nat) (hy : y ≤ S.length) :
    lev (F.take 0) (S.take y) = y := by
  rw [List.take_zero, lev_nil_left, List.length_take, min_eq_left hy]

/-- Invariant lemma for `for y in 0..matrix.height() { matrix[(y, 0)] = y }`:
the fold succeeds, column 0 of the processed rows holds the row index, and
every other in-range cell is untouched. -/
theorem foldlM_col_init (W Hh : Nat) (hW : 0 < W) :
    ∀ (k a : Nat) (m : Matrix Nat), m.Dims W Hh → a + k ≤ Hh →
      ∃ mw, (List.range' a k).foldlM
          (fun (m : Matrix Nat) y => m.writeCell (y, 0) y) m = some mw ∧
        mw.Dims W Hh ∧
        (∀ y, a ≤ y → y < a + k → mw.cellAt y 0 = y) ∧
        (∀ y x, y < Hh → x < W → (y < a ∨ a + k ≤ y ∨ x ≠ 0) →
          mw.cellAt y x = m.cellAt y x) := by
  intro k
  induction k with
  | zero =>
    intro a m hd hak
    refine ⟨m, by simp [List.foldlM_nil], hd, ?_, ?_⟩
    · intro y h1 h2; omega
    · intro y x _ _ _; rfl
  | succ k ih =>
    intro a m hd hak
    have ha : a < Hh := by omega
    obtain ⟨m1, hm1, hd1, hv1, hfr1⟩ :=
      Matrix.writeCell_in_range a hd ha hW
    obtain ⟨mw, hmw, hdw, hvw, hfrw⟩ := ih (a + 1) m1 hd1 (by omega)
    refine ⟨mw, ?_, hdw, ?_, ?_⟩
    · rw [List.range'_succ, List.foldlM_cons, hm1]
      simpa using hmw
    · intro y h1 h2
      by_cases hya : y = a
      · subst hya
        rw [hfrw y 0 ha hW (by omega), hv1]
      · exact hvw y (by omega) (by omega)
    · intro y x hy hx hcond
      rw [hfrw y x hy hx (by omega)]
      exact hfr1 y x hy hx (by
        intro hc
        have h1 : y = a := congrArg Prod.fst hc
        have h2 : x = 0 := congrArg Prod.snd hc
        omega)

/-- Invariant lemma for `for x in 0..matrix.width() { matrix[(0, x)] = x }`. -/
theorem foldlM_row_init (W Hh : Nat) (hH : 0 < Hh) :
    ∀ (k a : Nat) (m : Matrix Nat), m.Dims W Hh → a + k ≤ W →
      ∃ mw, (List.range' a k).foldlM
          (fun (m : Matrix Nat) x => m.writeCell (0, x) x) m = some mw ∧
        mw.Dims W Hh ∧
        (∀ x, a ≤ x → x < a + k → mw.cellAt 0 x = x) ∧
        (∀ y x, y < Hh → x < W → (x < a ∨ a + k ≤ x ∨ y ≠ 0) →
          mw.cellAt y x = m.cellAt y x) := by
  intro k
  induction k with
  | zero =>
    intro a m hd hak
    refine ⟨m, by simp [List.foldlM_nil], hd, ?_, ?_⟩
    · intro x h1 h2; omega
    · intro y x _ _ _; rfl
  | succ k ih =>
    intro a m hd hak
    have ha : a < W := by omega
    obtain ⟨m1, hm1, hd1, hv1, hfr1⟩ :=
      Matrix.writeCell_in_range a hd hH ha
    obtain ⟨mw, hmw, hdw, hvw, hfrw⟩ := ih (a + 1) m1 hd1 (by omega)
    refine ⟨mw, ?_, hdw, ?_, ?_⟩
    · rw [List.range'_succ, List.foldlM_cons, hm1]
      simpa using hmw
    · intro x h1 h2
      by_cases hxa : x = a
      · subst hxa
        rw [hfrw 0 x hH ha (by omega), hv1]
      · exact hvw x (by omega) (by omega)
    · intro y x hy hx hcond
      rw [hfrw y x hy hx (by omega)]
      exact hfr1 y x hy hx (by
        intro hc
        have h1 : y = 0 := congrArg Prod.fst hc
        have h2 : x = a := congrArg Prod.snd hc
        omega)

/-- Invariant lemma for the inner loop `for x in 1..matrix.width()` at row
`y`: given that all rows above `y` already hold their intended values, that
column 0 from row `y` down holds the row index, and that row `y` holds its
intended values strictly left of `x0`, the fold over columns
`x0, …, x0+k-1` succeeds and extends row `y`'s intended values to all
columns below `x0 + k`. -/
theorem foldlM_row_fill (F S : List T) (y : Nat) (hy1 : 1 ≤ y)
    (hyH : y < S.length + 1) :
    ∀ (k x0 : Nat) (m : Matrix Nat), m.Dims (F.length + 1) (S.length + 1) →
      1 ≤ x0 → x0 + k ≤ F.length + 1 →
      (∀ yy xx, yy < y → xx < F.length + 1 →
        m.cellAt yy xx = lev (F.take xx) (S.take yy)) →
      (∀ yy, y ≤ yy → yy < S.length + 1 → m.cellAt yy 0 = yy) →
      (∀ xx, xx < x0 → m.cellAt y xx = lev (F.take xx) (S.take y)) →
      ∃ mw, (List.range' x0 k).foldlM (cellBody F S y) m = some mw ∧
        mw.Dims (F.length + 1) (S.length + 1) ∧
        (∀ yy xx, yy < y → xx < F.length + 1 →
          mw.cellAt yy xx = lev (F.take xx) (S.take yy)) ∧
        (∀ yy, y ≤ yy → yy < S.length + 1 → mw.cellAt yy 0 = yy) ∧
        (∀ xx, xx < x0 + k → mw.cellAt y xx = lev (F.take xx) (S.take y)) := by
  intro k
  induction k with
  | zero =>
    intro x0 m hd hx01 hx0k hrows hcol hrow
    exact ⟨m, by simp [List.foldlM_nil], hd, hrows, hcol,
      fun xx hxx => hrow xx (by omega)⟩
  | succ k ih =>
    intro x0 m hd hx01 hx0k hrows hcol hrow
    have hx0W : x0 < F.length + 1 := by omega
    have hf1 : x0 - 1 < F.length := by omega
    have hs1 : y - 1 < S.length := by omega
    have hg1 : m.get (y - 1, x0 - 1) = some (m.cellAt (y - 1) (x0 - 1)) :=
      Matrix.get_in_range hd (by omega) (by omega)
    have hg2 : m.get (y - 1, x0) = some (m.cellAt (y - 1) x0) :=
      Matrix.get_in_range hd (by omega) hx0W
    have hg3 : m.get (y, x0 - 1) = some (m.cellAt y (x0 - 1)) :=
      Matrix.get_in_range hd hyH (by omega)
    have hv1 : m.cellAt (y - 1) (x0 - 1) = lev (F.take (x0 - 1)) (S.take (y - 1)) :=
      hrows _ _ (by omega) (by omega)
    have hv2 : m.cellAt (y - 1) x0 = lev (F.take x0) (S.take (y - 1)) :=
      hrows _ _ (by omega) hx0W
    have hv3 : m.cellAt y (x0 - 1) = lev (F.take (x0 - 1)) (S.take y) :=
      hrow _ (by omega)
    have hrecur := lev_take_recurrence F S (x0 - 1) (y - 1)
      (F.get ⟨x0 - 1, hf1⟩) (S.get ⟨y - 1, hs1⟩)
      (List.getElem?_eq_getElem hf1) (List.getElem?_eq_getElem hs1)
    rw [show x0 - 1 + 1 = x0 by omega, show y - 1 + 1 = y by omega] at hrecur
    obtain ⟨m1, hm1, hd1, hval1, hfr1⟩ :=
      Matrix.writeCell_in_range
        (min (min (m.cellAt (y - 1) (x0 - 1) +
              (if F.get ⟨x0 - 1, hf1⟩ = S.get ⟨y - 1, hs1⟩ then 0 else 1))
            (m.cellAt (y - 1) x0 + 1))
          (m.cellAt y (x0 - 1) + 1))
        hd hyH hx0W
    have hveq : min (min (m.cellAt (y - 1) (x0 - 1) +
          (if F.get ⟨x0 - 1, hf1⟩ = S.get ⟨y - 1, hs1⟩ then 0 else 1))
        (m.cellAt (y - 1) x0 + 1))
        (m.cellAt y (x0 - 1) + 1) = lev (F.take x0) (S.take y) := by
      rw [hv1, hv2, hv3, min_assoc, ← hrecur]
    have hbody : cellBody F S y m x0 = some m1 := by
      unfold cellBody
      rw [List.getElem?_eq_getElem hf1, Option.some_bind,
        List.getElem?_eq_getElem hs1, Option.some_bind]
      simp only []
      rw [hg1, Option.some_bind, hg2, Option.some_bind, hg3, Option.some_bind]
      rw [show ∀ a b c : Nat, ([a, b, c] : List Nat).min? =
        some (min (min a b) c) from fun a b c => rfl]
      rw [Option.some_bind]
      exact hm1
    obtain ⟨mw, hmw, hdw, hrowsw, hcolw, hroww⟩ := ih (x0 + 1) m1 hd1
      (by omega) (by omega)
      (by
        intro yy xx hyy hxx
        rw [hfr1 yy xx (by omega) hxx (by
          intro hc
          have := congrArg Prod.fst hc
          omega)]
        exact hrows yy xx hyy hxx)
      (by
        intro yy hyy1 hyy2
        rw [hfr1 yy 0 hyy2 (by omega) (by
          intro hc
          have := congrArg Prod.snd hc
          omega)]
        exact hcol yy hyy1 hyy2)
      (by
        intro xx hxx
        by_cases hxe : xx = x0
        · subst hxe
          rw [hval1, hveq]
        · rw [hfr1 y xx hyH (by omega) (by
            intro hc
            have := congrArg Prod.snd hc
            omega)]
          exact hrow xx (by omega))
    refine ⟨mw, ?_, hdw, hrowsw, hcolw, fun xx hxx => hroww xx (by omega)⟩
    rw [List.range'_succ, List.foldlM_cons, hbody]
    simpa using hmw

/-- Invariant lemma for the outer loop `for y in 1..matrix.height()`: each
iteration fills one row with its intended values (via `foldlM_row_fill`),
so after rows `y0, …, y0+k-1` every row below `y0 + k` is correct. -/
theorem foldlM_main (F S : List T) :
    ∀ (k y0 : Nat) (m : Matrix Nat), 1 ≤ y0 → y0 + k ≤ S.length + 1 →
      m.Dims (F.length + 1) (S.length + 1) →
      (∀ yy, yy < S.length + 1 → m.cellAt yy 0 = yy) →
      (∀ yy xx, yy < y0 → xx < F.length + 1 →
        m.cellAt yy xx = lev (F.take xx) (S.take yy)) →
      ∃ mw, (List.range' y0 k).foldlM
          (fun (m : Matrix Nat) y =>
            (List.range' 1 (m.width - 1)).foldlM (cellBody F S y) m) m
          = some mw ∧
        mw.Dims (F.length + 1) (S.length + 1) ∧
        (∀ yy xx, yy < y0 + k → xx < F.length + 1 →
          mw.cellAt yy xx = lev (F.take xx) (S.take yy)) := by
  intro k
  induction k with
  | zero =>
    intro y0 m hy01 hy0k hd hcol hdp
    exact ⟨m, by simp [List.foldlM_nil], hd,
      fun yy xx hyy hxx => hdp yy xx (by omega) hxx⟩
  | succ k ih =>
    intro y0 m hy01 hy0k hd hcol hdp
    have hy0H : y0 < S.length + 1 := by omega
    obtain ⟨m1, h1, hd1, hrows1, hcol1, hrow1⟩ :=
      foldlM_row_fill F S y0 hy01 hy0H F.length 1 m hd (by omega) (by omega)
        (fun yy xx hyy hxx => hdp yy xx hyy hxx)
        (fun yy hyy1 hyy2 => hcol yy hyy2)
        (by
          intro xx hxx
          have hxx0 : xx = 0 := by omega
          subst hxx0
          rw [lev_take_nil_left F S y0 (by omega)]
          exact hcol y0 hy0H)
    have hcol1full : ∀ yy, yy < S.length + 1 → m1.cellAt yy 0 = yy := by
      intro yy hyy
      by_cases hcase : yy < y0
      · rw [hrows1 yy 0 hcase (by omega)]
        exact lev_take_nil_left F S yy (by omega)
      · exact hcol1 yy (by omega) hyy
    have hdp1 : ∀ yy xx, yy < y0 + 1 → xx < F.length + 1 →
        m1.cellAt yy xx = lev (F.take xx) (S.take yy) := by
      intro yy xx hyy hxx
      by_cases hcase : yy < y0
      · exact hrows1 yy xx hcase hxx
      · have : yy = y0 := by omega
        subst this
        exact hrow1 xx (by omega)
    obtain ⟨mw, hmw, hdw, hdpw⟩ := ih (y0 + 1) m1 (by omega) (by omega)
      hd1 hcol1full hdp1
    refine ⟨mw, ?_, hdw, fun yy xx hyy hxx => hdpw yy xx (by omega) hxx⟩
    rw [List.range'_succ, List.foldlM_cons]
    have hw1 : m.width - 1 = F.length := by
      rw [hd.1]
      omega
    rw [hw1, h1]
    simpa using hmw

theorem Matrix.new_height (T : Type) [Inhabited T] (w h : Nat) :
    (Matrix.new T w h).height = h := rfl

theorem Matrix.new_width (T : Type) [Inhabited T] (w h : Nat) :
    (Matrix.new T w h).width = w := rfl

/-- Main refinement theorem: the imperative, matrix-based `levenshtein` of
`lib.rs` always succeeds (no panic site is reachable) and returns the
recursive Levenshtein distance of the two collected input words. -/
theorem levenshtein_eq_lev (F S : List T) :
    levenshtein F S = some (lev F S) := by
  have hW : (0 : Nat) < F.length + 1 := by omega
  have hH : (0 : Nat) < S.length + 1 := by omega
  obtain ⟨m1, h1, hd1, hcol1, _⟩ :=
    foldlM_col_init (F.length + 1) (S.length + 1) hW
      (S.length + 1) 0 (Matrix.new Nat (F.length + 1) (S.length + 1))
      (Matrix.dims_new _ _) (by omega)
  obtain ⟨m2, h2, hd2, hrow2, hfr2⟩ :=
    foldlM_row_init (F.length + 1) (S.length + 1) hH
      (F.length + 1) 0 m1 hd1 (by omega)
  have hcol2 : ∀ yy, yy < S.length + 1 → m2.cellAt yy 0 = yy := by
    intro yy hyy
    by_cases h0 : yy = 0
    · subst h0
      exact hrow2 0 (by omega) (by omega)
    · rw [hfr2 yy 0 hyy (by omega) (by right; right; exact h0)]
      exact hcol1 yy (by omega) (by omega)
  have hdp2 : ∀ yy xx, yy < 1 → xx < F.length + 1 →
      m2.cellAt yy xx = lev (F.take xx) (S.take yy) := by
    intro yy xx hyy hxx
    have h0 : yy = 0 := by omega
    subst h0
    rw [lev_take_nil_right F S xx (by omega)]
    exact hrow2 xx (by omega) (by omega)
  obtain ⟨m3, h3, hd3, hdp3⟩ :=
    foldlM_main F S S.length 1 m2 (by omega) (by omega) hd2 hcol2 hdp2
  simp only [levenshtein]
  rw [Matrix.new_height, List.range_eq_range', h1, Option.some_bind,
    hd1.1, List.range_eq_range', h2, Option.some_bind,
    hd2.2.1, Nat.add_sub_cancel, h3, Option.some_bind,
    hd3.2.1, hd3.1, Nat.add_sub_cancel, Nat.add_sub_cancel,
    Matrix.get_in_range hd3 (by omega) (by omega),
    hdp3 S.length F.length (by omega) (by omega),
    List.take_length, List.take_length]

end Refinement

/-!
### The claims
-/

section Claims

variable {T : Type} [DecidableEq T]

/-- C1: for every pair of finite sequences over an equality-comparable
element type, `levenshtein` returns exactly the Levenshtein edit distance:
it succeeds with the value `lev first second`, some chain of that many
single-element insertions/deletions/substitutions transforms `first` into
`second`, and no shorter chain does. -/
theorem C1_levenshtein_is_min_edit_count (first second : List T) :
    levenshtein first second = some (lev first second) ∧
    editChain (lev first second) first second ∧
    (∀ n, editChain n first second → lev first second ≤ n) :=
  ⟨levenshtein_eq_lev first second, editChain_lev_self first second,
    fun _ h => lev_le_of_editChain h⟩

theorem C1_levenshtein_is_min_edit_count_witness :
    lev ([0] : List Nat) [1] ≤ 1 :=
  (C1_levenshtein_is_min_edit_count [0] [1]).2.2 1
    ⟨[1], EditStep.sub 0 1 [] (by decide), rfl⟩

/-- C2 (failing input): the claim says `get` reports absence whenever
`col >= width`, and that an out-of-range selector is never silently wrapped
onto another cell.  On a 3×3 matrix, the selector `(0, 4)` has `col = 4 ≥
width = 3`, yet `get` returns a cell: `get_index` only checks the linear
index `y*width + x` against `width*height`, so `(0, 4)` silently wraps onto
the cell at linear index 4 — the same cell addressed by `(1, 1)`. -/
theorem C2_get_wraps_out_of_range_column :
    (Matrix.new Nat 3 3).get (0, 4) = some 0 ∧
    (Matrix.new Nat 3 3).get_index (0, 4) = (Matrix.new Nat 3 3).get_index (1, 1) := by
  constructor
  · rfl
  · rfl

/-- C3: `levenshtein` is total: for every pair of finite input sequences it
returns `some` result, so neither the "invalid index" panic of the indexing
operators, nor the `Vec` indexing panic, nor the `.min().unwrap()` panic can
fire (every panic site is modelled as `none`). -/
theorem C3_levenshtein_total (first second : List T) :
    ∃ n, levenshtein first second = some n :=
  ⟨lev first second, levenshtein_eq_lev first second⟩

theorem C3_levenshtein_total_witness :
    ∃ n, levenshtein "abc".toList "xbd".toList = some n :=
  C3_levenshtein_total "abc".toList "xbd".toList

/-- C4: `levenshtein` returns 0 exactly on element-wise identical sequences;
in particular it returns 0 on every pair of equal sequences. -/
theorem C4_zero_iff_identical (S1 S2 : List T) :
    (levenshtein S1 S2 = some 0 ↔ S1 = S2) ∧ levenshtein S1 S1 = some 0 := by
  constructor
  · constructor
    · intro h0
      rw [levenshtein_eq_lev] at h0
      exact (lev_eq_zero_iff S1 S2).mp (Option.some.inj h0)
    · intro he
      rw [levenshtein_eq_lev, (lev_eq_zero_iff S1 S2).mpr he]
  · rw [levenshtein_eq_lev, lev_self]

theorem C4_zero_iff_identical_witness :
    levenshtein ([0, 1] : List Nat) [0, 1] = some 0 :=
  (C4_zero_iff_identical [0, 1] [0, 1]).1.mpr rfl

/-- C5: `levenshtein` is symmetric in its two arguments. -/
theorem C5_levenshtein_symm (S1 S2 : List T) :
    levenshtein S1 S2 = levenshtein S2 S1 := by
  rw [levenshtein_eq_lev, levenshtein_eq_lev, lev_symm]

theorem C5_levenshtein_symm_witness :
    levenshtein "ab".toList "ba".toList = levenshtein "ba".toList "ab".toList :=
  C5_levenshtein_symm "ab".toList "ba".toList

/-- C6: against the empty sequence, `levenshtein` returns the other
sequence's length (on either side). -/
theorem C6_empty_base_case (S1 S2 : List T) :
    levenshtein ([] : List T) S2 = some S2.length ∧
    levenshtein S1 ([] : List T) = some S1.length := by
  constructor
  · rw [levenshtein_eq_lev, lev_nil_left]
  · rw [levenshtein_eq_lev, lev_nil_right]

theorem C6_empty_base_case_witness :
    levenshtein ([] : List Nat) [7, 8, 9] = some 3 :=
  (C6_empty_base_case [7, 8, 9] [7, 8, 9]).1

/-- C7: triangle inequality for the values returned by `levenshtein`. -/
theorem C7_triangle (S1 S2 S3 : List T) (a b c : Nat)
    (h1 : levenshtein S1 S3 = some a)
    (h2 : levenshtein S1 S2 = some b)
    (h3 : levenshtein S2 S3 = some c) : a ≤ b + c := by
  rw [levenshtein_eq_lev] at h1 h2 h3
  have ha := Option.some.inj h1
  have hb := Option.some.inj h2
  have hc := Option.some.inj h3
  subst ha; subst hb; subst hc
  exact lev_triangle S1 S2 S3

theorem C7_triangle_witness : (1 : Nat) ≤ 1 + 1 :=
  C7_triangle "a".toList "ab".toList "b".toList 1 1 1
    (by decide) (by decide) (by decide)

set_option maxRecDepth 100000 in
/-- C8: the three concrete scenarios of the spec (and of the repository's
test suite), on the literal character sequences of the given strings. -/
theorem C8_concrete_examples :
    levenshtein "sitting".toList "kitten".toList = some 3 ∧
    levenshtein "honda".toList "hyundai".toList = some 3 ∧
    levenshtein "gily".toList "geely".toList = some 2 := by
  refine ⟨?_, ?_, ?_⟩ <;> decide

/-- C9: `Matrix::new(width, height)` yields a grid whose reported width and
height are the construction dimensions, whose backing vector has exactly
`width * height` cells, and in which every cell readable through `get`
holds zero. -/
theorem C9_new_zero_grid (w h : Nat) :
    (Matrix.new Nat w h).width = w ∧
    (Matrix.new Nat w h).height = h ∧
    (Matrix.new Nat w h).data.length = w * h ∧
    (∀ s v, (Matrix.new Nat w h).get s = some v → v = 0) := by
  refine ⟨rfl, rfl, by simp [Matrix.new], ?_⟩
  intro s v hget
  unfold Matrix.get at hget
  rcases hidx : (Matrix.new Nat w h).get_index s with _ | index
  · rw [hidx] at hget
    cases hget
  · rw [hidx] at hget
    have hrep : (List.replicate (w * h) (0 : Nat))[index]? = some v := hget
    rw [List.getElem?_replicate] at hrep
    by_cases hlt : index < w * h
    · rw [if_pos hlt] at hrep
      exact (Option.some.inj hrep).symm
    · rw [if_neg hlt] at hrep
      cases hrep

theorem C9_new_zero_grid_witness :
    (Matrix.new Nat 2 3).width = 2 ∧ (0 : Nat) = 0 :=
  ⟨(C9_new_zero_grid 2 3).1, (C9_new_zero_grid 2 3).2.2.2 (1, 1) 0 (by decide)⟩

/-- C10: writing through the mutable accessor at an in-range selector
changes only that cell: the write succeeds, the dimensions are unchanged,
the written cell holds the new value, and every other in-range cell keeps
its previous value. -/
theorem C10_write_frame {m : Matrix Nat} {W Hh row col : Nat} (v : Nat)
    (hd : m.Dims W Hh) (hrow : row < Hh) (hcol : col < W) :
    ∃ mw, m.writeCell (row, col) v = some mw ∧
      mw.width = m.width ∧ mw.height = m.height ∧
      mw.cellAt row col = v ∧
      (∀ r c, r < Hh → c < W → (r, c) ≠ (row, col) →
        mw.cellAt r c = m.cellAt r c) := by
  obtain ⟨mw, hw, hdw, hval, hfr⟩ := Matrix.writeCell_in_range v hd hrow hcol
  exact ⟨mw, hw, by rw [hdw.1, hd.1], by rw [hdw.2.1, hd.2.1], hval, hfr⟩

theorem C10_write_frame_witness :
    ∃ mw, (Matrix.new Nat 3 3).writeCell (1, 1) 5 = some mw ∧
      mw.width = (Matrix.new Nat 3 3).width ∧
      mw.height = (Matrix.new Nat 3 3).height ∧
      mw.cellAt 1 1 = 5 ∧
      (∀ r c, r < 3 → c < 3 → (r, c) ≠ (1, 1) →
        mw.cellAt r c = (Matrix.new Nat 3 3).cellAt r c) :=
  C10_write_frame 5 (Matrix.dims_new 3 3) (by decide) (by decide)

end Claims

end EditDist
